import Mathlib

/-!
Verification of the preview-selection and file-download views of
invenio_rdm_records (theme/views.py), shallowly embedded in Lean.

External collaborators (the previewable-extension predicate, the record
file factory, the streaming responder, identifier-scheme detection and
URL generation) are taken as parameters; everything else is translated
from the source.
-/

namespace RDMViews

/-- A file descriptor as consumed by select_preview_file: a dict that may or
may not carry a key field; fid stands for the rest of its payload, so two
descriptors with the same key can still differ. -/
structure FileDesc where
  key : Option String
  fid : Nat
deriving DecidableEq

/-- itemgetter applied to a descriptor that has a key; the default is
irrelevant because every use is guarded by the key being present. -/
def keyOf (f : FileDesc) : String := f.key.getD ""

/-- splitext(key)[1][1:].lower(), following posixpath splitext: the extension
is the part after the last dot of the basename (the part after the last
slash), unless every character of the basename before that dot is itself a
dot, in which case the extension is empty.  Lowercasing is ASCII. -/
def file_type (key : String) : String :=
  let r := key.data.reverse.takeWhile (fun c => c != '/')
  let afterRev := r.takeWhile (fun c => c != '.')
  if afterRev.length = r.length then ""
  else if (r.drop (afterRev.length + 1)).any (fun c => c != '.') then
    String.mk (afterRev.reverse.map Char.toLower)
  else ""

/-- The extension rule exactly as the specification words it: the substring
after the last dot of the whole key, lowercased, and empty when the key has
no dot.  Kept separate from file_type so the two rules can be compared. -/
def spec_file_type (key : String) : String :=
  let r := key.data.reverse
  let afterRev := r.takeWhile (fun c => c != '.')
  if afterRev.length = r.length then ""
  else String.mk (afterRev.reverse.map Char.toLower)

/-- is_previewable applied to the computed file type (P stands for the
external previewable-extension predicate). -/
def prevb (P : String → Bool) (f : FileDesc) : Bool := P (file_type (keyOf f))

/-- Lexicographic comparison of character lists by code point, the order
Python uses to compare strings: a proper prefix sorts first. -/
def strLeb : List Char → List Char → Bool
  | [], _ => true
  | _ :: _, [] => false
  | a :: as, b :: bs => if a < b then true else if b < a then false else strLeb as bs

/-- String order as sorted() sees it. -/
def strLe (s t : String) : Prop := strLeb s.data t.data = true

instance (s t : String) : Decidable (strLe s t) := inferInstanceAs (Decidable (_ = true))

theorem strLeb_total : ∀ x y : List Char, strLeb x y = true ∨ strLeb y x = true
  | [], _ => Or.inl rfl
  | _ :: _, [] => Or.inr rfl
  | a :: as, b :: bs => by
    rcases lt_trichotomy a b with h | h | h
    · exact Or.inl (by simp [strLeb, h])
    · subst h
      rcases strLeb_total as bs with ih | ih
      · exact Or.inl (by simp [strLeb, lt_irrefl, ih])
      · exact Or.inr (by simp [strLeb, lt_irrefl, ih])
    · exact Or.inr (by simp [strLeb, h])

theorem strLeb_trans : ∀ x y z : List Char,
    strLeb x y = true → strLeb y z = true → strLeb x z = true
  | [], _, _, _, _ => rfl
  | a :: as, [], _, hxy, _ => by simp [strLeb] at hxy
  | a :: as, b :: bs, [], _, hyz => by simp [strLeb] at hyz
  | a :: as, b :: bs, c :: cs, hxy, hyz => by
    simp only [strLeb] at hxy hyz ⊢
    rcases lt_trichotomy a b with hab | hab | hab
    · rcases lt_trichotomy b c with hbc | hbc | hbc
      · simp [lt_trans hab hbc]
      · subst hbc; simp [hab]
      · rcases lt_trichotomy a c with hac | hac | hac
        · simp [hac]
        · subst hac; simp [hbc, lt_asymm hbc] at hyz
        · simp [hbc, lt_asymm hbc] at hyz
    · subst hab
      rcases lt_trichotomy a c with hac | hac | hac
      · simp [hac]
      · subst hac
        simp [lt_irrefl] at hxy hyz ⊢
        exact strLeb_trans as bs cs hxy hyz
      · simp [lt_asymm hac, hac] at hyz
    · simp [hab, lt_asymm hab] at hxy

theorem strLeb_antisymm : ∀ x y : List Char,
    strLeb x y = true → strLeb y x = true → x = y
  | [], [], _, _ => rfl
  | [], _ :: _, _, hyx => by simp [strLeb] at hyx
  | _ :: _, [], hxy, _ => by simp [strLeb] at hxy
  | a :: as, b :: bs, hxy, hyx => by
    simp only [strLeb] at hxy hyx
    rcases lt_trichotomy a b with hab | hab | hab
    · simp [hab, lt_asymm hab] at hyx
    · subst hab
      simp [lt_irrefl] at hxy hyx
      rw [strLeb_antisymm as bs hxy hyx]
    · simp [hab, lt_asymm hab] at hxy

/-- The comparison used by sorted(files, key=itemgetter('key')). -/
def keyLe (a b : FileDesc) : Prop := strLe (keyOf a) (keyOf b)

instance : DecidableRel keyLe := fun a b => inferInstanceAs (Decidable (strLe (keyOf a) (keyOf b)))

instance : IsTotal FileDesc keyLe := ⟨fun a b => strLeb_total (keyOf a).data (keyOf b).data⟩

instance : IsTrans FileDesc keyLe :=
  ⟨fun _ _ _ hab hbc => strLeb_trans _ _ _ hab hbc⟩

/-- The loop body of select_preview_file: selected starts as none, the first
previewable file is taken, and a later previewable file overwrites it exactly
when its key equals default_preview. -/
def selScan (pr : FileDesc → Bool) (dp : Option String) : Option FileDesc → List FileDesc → Option FileDesc
  | sel, [] => sel
  | sel, f :: rest =>
    if pr f then
      match sel with
      | none => selScan pr dp (some f) rest
      | some s => if f.key = dp then selScan pr dp (some f) rest else selScan pr dp (some s) rest
    else selScan pr dp sel rest

/-- select_preview_file.  sorted computes itemgetter keys for every element
before the loop body runs, so a descriptor without a key raises KeyError
before anything is selected; the handler swallows it and the function
returns selected, which is still none. -/
def select_preview_file (P : String → Bool) (files : List FileDesc) (dp : Option String) : Option FileDesc :=
  if files.any (fun f => f.key.isNone) then none
  else selScan (prevb P) dp none (List.insertionSort keyLe files)

/-- The files argument as actually received: files or [] turns a missing
collection into the empty list. -/
def select_preview_file_arg (P : String → Bool) (files : Option (List FileDesc)) (dp : Option String) : Option FileDesc :=
  select_preview_file P (files.getD []) dp

example : file_type "a.txt" = "txt" := by decide
example : file_type "archive.TAR.GZ" = "gz" := by decide
example : file_type ".txt" = "" := by decide
example : file_type "..x" = "" := by decide
example : file_type "a..x" = "x" := by decide
example : file_type "a.b/c" = "" := by decide
example : file_type "noext" = "" := by decide
example : spec_file_type ".txt" = "txt" := by decide
example : spec_file_type "noext" = "" := by decide
example : strLe "a" "b" := by decide

example :
    select_preview_file (fun s => s == "txt") [⟨some "b.txt", 0⟩, ⟨some "a.txt", 1⟩] none =
      some ⟨some "a.txt", 1⟩ := by decide

example :
    select_preview_file (fun s => s == "txt") [⟨some "a.txt", 0⟩, ⟨some "b.txt", 1⟩] (some "b.txt") =
      some ⟨some "b.txt", 1⟩ := by decide

example :
    select_preview_file (fun s => s == "txt") [⟨none, 0⟩, ⟨some "a.txt", 1⟩] none = none := by decide

/-- The last element of a list, or the supplied default when it is empty. -/
def lastD {α : Type} : List α → α → α
  | [], d => d
  | x :: xs, _ => lastD xs x

theorem lastD_eq_or_mem {α : Type} : ∀ (l : List α) (d : α), lastD l d = d ∨ lastD l d ∈ l
  | [], _ => Or.inl rfl
  | x :: xs, d => by
    rcases lastD_eq_or_mem xs x with h | h
    · exact Or.inr (by simp [lastD, h])
    · exact Or.inr (by simp only [lastD]; exact List.mem_cons_of_mem x h)

theorem lastD_mem_of_ne_nil {α : Type} : ∀ (l : List α) (d : α), l ≠ [] → lastD l d ∈ l
  | [], _, h => absurd rfl h
  | x :: xs, d, _ => by
    rcases lastD_eq_or_mem xs x with h | h
    · simp [lastD, h]
    · exact List.mem_cons_of_mem x (by simpa [lastD] using h)

theorem strLeb_refl : ∀ x : List Char, strLeb x x = true
  | [] => rfl
  | a :: as => by simp [strLeb, lt_irrefl, strLeb_refl as]

/-- The condition under which a later candidate overwrites the selection:
previewable and named by default_preview. -/
def isDefaultPrev (pr : FileDesc → Bool) (k : String) (f : FileDesc) : Bool :=
  pr f && decide (f.key = some k)

theorem selScan_some (pr : FileDesc → Bool) (k : String) :
    ∀ (l : List FileDesc) (s : FileDesc),
      selScan pr (some k) (some s) l = some (lastD (l.filter (isDefaultPrev pr k)) s)
  | [], _ => rfl
  | f :: rest, s => by
    by_cases hp : pr f = true
    · by_cases hk : f.key = some k
      · simp only [selScan, hp, if_true, hk, if_pos]
        rw [selScan_some pr k rest f]
        simp [List.filter_cons, isDefaultPrev, hp, hk, lastD]
      · simp only [selScan, hp, if_true, hk, if_neg, if_false]
        rw [selScan_some pr k rest s]
        simp [List.filter_cons, isDefaultPrev, hk]
    · have hpf : pr f = false := by simpa using hp
      simp only [selScan, hpf]
      rw [if_neg (by simp), selScan_some pr k rest s]
      simp [List.filter_cons, isDefaultPrev, hpf]

theorem isDefaultPrev_lastD (pr : FileDesc → Bool) (k : String) (d : FileDesc)
    (l : List FileDesc) (hd : isDefaultPrev pr k d = true) :
    isDefaultPrev pr k (lastD (l.filter (isDefaultPrev pr k)) d) = true := by
  rcases lastD_eq_or_mem (l.filter (isDefaultPrev pr k)) d with h | h
  · rw [h]; exact hd
  · exact List.of_mem_filter h

theorem lastD_filter_mem (p : FileDesc → Bool) (d : FileDesc) (l : List FileDesc) :
    lastD (l.filter p) d = d ∨ lastD (l.filter p) d ∈ l := by
  rcases lastD_eq_or_mem (l.filter p) d with h | h
  · exact Or.inl h
  · exact Or.inr (List.mem_of_mem_filter h)

theorem selScan_none_default (pr : FileDesc → Bool) (k : String) :
    ∀ (l : List FileDesc), (∃ f ∈ l, isDefaultPrev pr k f = true) →
      ∃ g, selScan pr (some k) none l = some g ∧ isDefaultPrev pr k g = true ∧ g ∈ l
  | [], h => by
    rcases h with ⟨f, hf, _⟩
    exact absurd hf (List.not_mem_nil f)
  | f :: rest, h => by
    rcases h with ⟨f0, hf0mem, hf0⟩
    by_cases hp : pr f = true
    · have hscan : selScan pr (some k) none (f :: rest) = selScan pr (some k) (some f) rest := by
        simp [selScan, hp]
      rw [hscan, selScan_some pr k rest f]
      by_cases hfq : isDefaultPrev pr k f = true
      · refine ⟨_, rfl, isDefaultPrev_lastD pr k f rest hfq, ?_⟩
        rcases lastD_filter_mem (isDefaultPrev pr k) f rest with h | h
        · rw [h]; exact List.mem_cons_self f rest
        · exact List.mem_cons_of_mem f h
      · have hf0rest : f0 ∈ rest := by
          rcases List.mem_cons.mp hf0mem with rfl | h
          · exact absurd hf0 hfq
          · exact h
        have hne : rest.filter (isDefaultPrev pr k) ≠ [] := by
          intro hnil
          have hmem := List.mem_filter.mpr ⟨hf0rest, hf0⟩
          rw [hnil] at hmem
          exact absurd hmem (List.not_mem_nil f0)
        have hmem := lastD_mem_of_ne_nil (rest.filter (isDefaultPrev pr k)) f hne
        exact ⟨_, rfl, List.of_mem_filter hmem,
          List.mem_cons_of_mem f (List.mem_of_mem_filter hmem)⟩
    · have hpf : pr f = false := by simpa using hp
      have hscan : selScan pr (some k) none (f :: rest) = selScan pr (some k) none rest := by
        simp [selScan, hpf]
      have hf0rest : f0 ∈ rest := by
        rcases List.mem_cons.mp hf0mem with rfl | h
        · simp [isDefaultPrev, hpf] at hf0
        · exact h
      rcases selScan_none_default pr k rest ⟨f0, hf0rest, hf0⟩ with ⟨g, h1, h2, h3⟩
      exact ⟨g, hscan ▸ h1, h2, List.mem_cons_of_mem f h3⟩

theorem selScan_some_nodefault (pr : FileDesc → Bool) :
    ∀ (l : List FileDesc), (∀ g ∈ l, (FileDesc.key g).isSome = true) →
      ∀ s, selScan pr none (some s) l = some s
  | [], _, _ => rfl
  | f :: rest, hkeys, s => by
    have hrest := fun g hg => hkeys g (List.mem_cons_of_mem f hg)
    have hk : ¬ (f.key = none) := by
      have hsome := hkeys f (List.mem_cons_self f rest)
      cases h : f.key with
      | none => rw [h] at hsome; simp at hsome
      | some a => simp [h]
    by_cases hp : pr f = true
    · simp only [selScan, hp, if_true, hk, if_neg, if_false]
      exact selScan_some_nodefault pr rest hrest s
    · have hpf : pr f = false := by simpa using hp
      simp only [selScan, hpf]
      rw [if_neg (by simp)]
      exact selScan_some_nodefault pr rest hrest s

theorem selScan_none_nodefault (pr : FileDesc → Bool) :
    ∀ (l : List FileDesc), (∀ g ∈ l, (FileDesc.key g).isSome = true) →
      selScan pr none none l = l.find? pr
  | [], _ => rfl
  | f :: rest, hkeys => by
    have hrest := fun g hg => hkeys g (List.mem_cons_of_mem f hg)
    by_cases hp : pr f = true
    · have hscan : selScan pr none none (f :: rest) = selScan pr none (some f) rest := by
        simp [selScan, hp]
      rw [hscan, List.find?_cons_of_pos _ hp]
      exact selScan_some_nodefault pr rest hrest f
    · have hpf : pr f = false := by simpa using hp
      have hscan : selScan pr none none (f :: rest) = selScan pr none none rest := by
        simp [selScan, hpf]
      rw [hscan, List.find?_cons_of_neg _ (by simp [hpf])]
      exact selScan_none_nodefault pr rest hrest

theorem find?_sorted_min (pr : FileDesc → Bool) :
    ∀ (l : List FileDesc), l.Sorted keyLe → ∀ g, l.find? pr = some g →
      ∀ x ∈ l, pr x = true → keyLe g x
  | [], _, g, hg => by simp at hg
  | f :: rest, hsort, g, hg => by
    rcases List.sorted_cons.mp hsort with ⟨hall, hrest⟩
    by_cases hp : pr f = true
    · rw [List.find?_cons_of_pos _ hp] at hg
      injection hg with hg
      subst hg
      intro x hx _
      rcases List.mem_cons.mp hx with rfl | hx
      · exact strLeb_refl _
      · exact hall x hx
    · rw [List.find?_cons_of_neg _ (by simpa using hp)] at hg
      intro x hx hpx
      rcases List.mem_cons.mp hx with rfl | hx
      · exact absurd hpx hp
      · exact find?_sorted_min pr rest hrest g hg x hx hpx

theorem strLe_antisymm : ∀ (s t : String), strLe s t → strLe t s → s = t
  | ⟨sd⟩, ⟨td⟩, h1, h2 => congrArg String.mk (strLeb_antisymm sd td h1 h2)

theorem any_isNone_false_of_forall {l : List FileDesc}
    (h : ∀ g ∈ l, (FileDesc.key g).isSome = true) :
    (l.any fun f => f.key.isNone) = false := by
  cases hb : l.any fun f => f.key.isNone with
  | false => rfl
  | true =>
    rcases List.any_eq_true.mp hb with ⟨f, hf, hn⟩
    have hs := h f hf
    cases hk : f.key with
    | none => rw [hk] at hs; simp at hs
    | some a => rw [hk] at hn; simp at hn

theorem keyOf_inj_of_nodup {l : List FileDesc}
    (hnd : (l.map FileDesc.key).Nodup)
    (hkeys : ∀ g ∈ l, (FileDesc.key g).isSome = true) :
    ∀ a ∈ l, ∀ b ∈ l, keyOf a = keyOf b → a = b := by
  intro a ha b hb hk
  apply List.inj_on_of_nodup_map hnd ha hb
  rcases Option.isSome_iff_exists.mp (hkeys a ha) with ⟨x, hx⟩
  rcases Option.isSome_iff_exists.mp (hkeys b hb) with ⟨y, hy⟩
  rw [keyOf, keyOf, hx, hy] at hk
  simp only [Option.getD_some] at hk
  rw [hx, hy, hk]

theorem sorted_perm_eq_of_nodup_keys :
    ∀ (l1 l2 : List FileDesc), l1.Perm l2 → l1.Sorted keyLe → l2.Sorted keyLe →
      (l1.map keyOf).Nodup → l1 = l2
  | [], l2, hperm, _, _, _ => (List.Perm.eq_nil hperm.symm).symm
  | a :: t1, l2, hperm, hs1, hs2, hnd => by
    cases l2 with
    | nil => exact absurd (List.Perm.eq_nil hperm) (by simp)
    | cons b t2 =>
      rcases List.sorted_cons.mp hs1 with ⟨h1all, h1t⟩
      rcases List.sorted_cons.mp hs2 with ⟨h2all, h2t⟩
      have ha2 : a ∈ b :: t2 := hperm.subset (List.mem_cons_self a t1)
      have hb1 : b ∈ a :: t1 := hperm.symm.subset (List.mem_cons_self b t2)
      have hab : a = b := by
        rcases List.mem_cons.mp hb1 with h | h
        · exact h.symm
        · rcases List.mem_cons.mp ha2 with h' | h'
          · exact h'
          · have k1 : keyLe a b := h1all b h
            have k2 : keyLe b a := h2all a h'
            have hk : keyOf a = keyOf b := strLe_antisymm (keyOf a) (keyOf b) k1 k2
            exact List.inj_on_of_nodup_map hnd (List.mem_cons_self a t1)
              (List.mem_cons_of_mem a h) hk
      subst hab
      have hperm' := hperm.cons_inv
      have hndt : (t1.map keyOf).Nodup := by
        have he : ((a :: t1).map keyOf) = keyOf a :: t1.map keyOf := rfl
        rw [he] at hnd
        exact hnd.of_cons
      rw [sorted_perm_eq_of_nodup_keys t1 t2 hperm' h1t h2t hndt]

/-- For comparison with claim C1 only: the selection the claim describes, in
which a candidate without a key is skipped silently while the scan continues
over the remaining descriptors. -/
def select_skipping_keyless (P : String → Bool) (files : List FileDesc) (dp : Option String) : Option FileDesc :=
  selScan (prevb P) dp none (List.insertionSort keyLe (files.filter (fun f => f.key.isSome)))

/-- For comparison with claim C5 only: the selector with the extension rule as
the claim words it, the substring after the last dot of the whole key. -/
def select_with_spec_exts (P : String → Bool) (files : List FileDesc) (dp : Option String) : Option FileDesc :=
  if files.any (fun f => f.key.isNone) then none
  else selScan (fun f => P (spec_file_type (keyOf f))) dp none (List.insertionSort keyLe files)

/-- The previewable-extension predicate used in all concrete inputs: exactly
the extension txt is previewable. -/
def txtOnly : String → Bool := fun s => s == "txt"

def dA : FileDesc := ⟨some "a.txt", 1⟩

def dB : FileDesc := ⟨some "b.txt", 0⟩

def dKeyless : FileDesc := ⟨none, 0⟩

def dHidden : FileDesc := ⟨some ".txt", 0⟩

/-- C1 is false on the code: with a keyless descriptor next to the valid
previewable a.txt, select_preview_file returns none instead of a.txt, while
the skip-and-continue selector the claim describes does return a.txt. -/
theorem C1_counterexample :
    select_preview_file txtOnly [dKeyless, dA] none = none ∧
    select_skipping_keyless txtOnly [dKeyless, dA] none = some dA := by
  decide

/-- C1 (amended): a descriptor missing the key field makes select_preview_file
return none for the whole collection: the KeyError raised while sorting is
caught with nothing selected, so the scan aborts instead of skipping the
malformed entry. -/
theorem C1_missing_key_aborts (P : String → Bool) (files : List FileDesc) (dp : Option String)
    (h : ∃ f ∈ files, f.key = none) :
    select_preview_file P files dp = none := by
  have hany : files.any (fun f => f.key.isNone) = true := by
    rcases h with ⟨f, hf, hk⟩
    exact List.any_eq_true.mpr ⟨f, hf, by rw [hk]; rfl⟩
  simp [select_preview_file, hany]

theorem C1_witness :
    (∃ f ∈ [dKeyless, dA], f.key = none) ∧
      select_preview_file txtOnly [dKeyless, dA] none = none :=
  ⟨by decide, C1_missing_key_aborts txtOnly [dKeyless, dA] none (by decide)⟩

/-- C4: when default_preview names a previewable descriptor of a collection
whose descriptors all carry keys, unique within the collection, the selector
returns exactly that descriptor, even when a previewable descriptor with a
lexicographically smaller key exists. -/
theorem C4_default_precedence (P : String → Bool) (files : List FileDesc) (k : String)
    (f : FileDesc)
    (hkeys : ∀ g ∈ files, (FileDesc.key g).isSome = true)
    (hnd : (files.map FileDesc.key).Nodup)
    (hf : f ∈ files) (hfk : f.key = some k) (hprev : prevb P f = true) :
    select_preview_file P files (some k) = some f := by
  have hany := any_isNone_false_of_forall hkeys
  rw [select_preview_file, if_neg (by simp [hany])]
  have hmem : f ∈ List.insertionSort keyLe files := (List.mem_insertionSort keyLe).mpr hf
  have hq : isDefaultPrev (prevb P) k f = true := by
    simp [isDefaultPrev, hprev, hfk]
  rcases selScan_none_default (prevb P) k (List.insertionSort keyLe files)
    ⟨f, hmem, hq⟩ with ⟨g, hsc, hgq, hgl⟩
  rw [hsc]
  have hgfiles : g ∈ files := (List.mem_insertionSort keyLe).mp hgl
  have hgk : g.key = some k := by
    simp only [isDefaultPrev, Bool.and_eq_true, decide_eq_true_eq] at hgq
    exact hgq.2
  have hgf : g = f := List.inj_on_of_nodup_map hnd hgfiles hf (by rw [hgk, hfk])
  rw [hgf]

theorem C4_witness :
    ((∀ g ∈ [dA, dB], (FileDesc.key g).isSome = true) ∧
      ([dA, dB].map FileDesc.key).Nodup ∧ dB ∈ [dA, dB] ∧
      dB.key = some "b.txt" ∧ prevb txtOnly dB = true) ∧
    select_preview_file txtOnly [dA, dB] (some "b.txt") = some dB :=
  ⟨⟨by decide, by decide, by decide, by decide, by decide⟩,
    C4_default_precedence txtOnly [dA, dB] "b.txt" dB (by decide) (by decide)
      (by decide) (by decide) (by decide)⟩

/-- C5 is false on the code: the claim computes the extension of .txt as txt,
previewable, so it demands that the lone descriptor be selected; the code
computes the splitext extension of .txt as empty and selects nothing. -/
theorem C5_counterexample :
    select_preview_file txtOnly [dHidden] none = none ∧
    select_with_spec_exts txtOnly [dHidden] none = some dHidden ∧
    txtOnly (spec_file_type ".txt") = true := by
  decide

/-- C5 (amended): with no default_preview and every descriptor carrying a key,
select_preview_file returns the previewable descriptor with the smallest key
in the code-point string order, previewability being determined by the
splitext extension rule (last dot of the basename, with all-dots basename
prefixes yielding no extension), lowercased, under the external predicate; a
missing collection, an empty one, or one with no previewable descriptor
yields none. -/
theorem C5_first_match (P : String → Bool) (files : List FileDesc)
    (hkeys : ∀ g ∈ files, (FileDesc.key g).isSome = true) :
    select_preview_file_arg P none none = none ∧
    (select_preview_file P files none = none ↔ ∀ f ∈ files, prevb P f = false) ∧
    (∀ g, select_preview_file P files none = some g →
      g ∈ files ∧ prevb P g = true ∧
        ∀ f ∈ files, prevb P f = true → strLe (keyOf g) (keyOf f)) := by
  have hany := any_isNone_false_of_forall hkeys
  have hkeys' : ∀ g ∈ List.insertionSort keyLe files, (FileDesc.key g).isSome = true :=
    fun g hg => hkeys g ((List.mem_insertionSort keyLe).mp hg)
  have hsel : select_preview_file P files none =
      (List.insertionSort keyLe files).find? (prevb P) := by
    rw [select_preview_file, if_neg (by simp [hany])]
    exact selScan_none_nodefault (prevb P) _ hkeys'
  refine ⟨rfl, ?_, ?_⟩
  · rw [hsel, List.find?_eq_none]
    constructor
    · intro h f hf
      have := h f ((List.mem_insertionSort keyLe).mpr hf)
      cases hb : prevb P f with
      | false => rfl
      | true => exact absurd hb this
    · intro h f hf hp
      rw [h f ((List.mem_insertionSort keyLe).mp hf)] at hp
      cases hp
  · intro g hg
    rw [hsel] at hg
    refine ⟨(List.mem_insertionSort keyLe).mp (List.mem_of_find?_eq_some hg),
      List.find?_some hg, ?_⟩
    intro f hf hpf
    exact find?_sorted_min (prevb P) _ (List.sorted_insertionSort keyLe files) g hg f
      ((List.mem_insertionSort keyLe).mpr hf) hpf

theorem C5_witness :
    (∀ g ∈ [dB, dA], (FileDesc.key g).isSome = true) ∧
    (select_preview_file_arg txtOnly none none = none ∧
      (select_preview_file txtOnly [dB, dA] none = none ↔
        ∀ f ∈ [dB, dA], prevb txtOnly f = false) ∧
      (∀ g, select_preview_file txtOnly [dB, dA] none = some g →
        g ∈ [dB, dA] ∧ prevb txtOnly g = true ∧
          ∀ f ∈ [dB, dA], prevb txtOnly f = true → strLe (keyOf g) (keyOf f))) :=
  ⟨by decide, C5_first_match txtOnly [dB, dA] (by decide)⟩

/-- C6: for a fixed multiset of descriptors with keys unique within the
collection, the selection does not depend on the order in which the input
presents the descriptors. -/
theorem C6_determinism (P : String → Bool) (l1 l2 : List FileDesc) (dp : Option String)
    (hperm : l1.Perm l2) (hnd : (l1.map FileDesc.key).Nodup) :
    select_preview_file P l1 dp = select_preview_file P l2 dp := by
  by_cases hn : ∃ f ∈ l1, (FileDesc.key f).isNone = true
  · have h1 : l1.any (fun f => f.key.isNone) = true := List.any_eq_true.mpr hn
    have h2 : l2.any (fun f => f.key.isNone) = true := by
      rcases hn with ⟨f, hf, h⟩
      exact List.any_eq_true.mpr ⟨f, hperm.subset hf, h⟩
    simp [select_preview_file, h1, h2]
  · have hkeys : ∀ g ∈ l1, (FileDesc.key g).isSome = true := by
      intro g hg
      cases hk : g.key with
      | none => exact absurd ⟨g, hg, by rw [hk]; rfl⟩ hn
      | some a => rfl
    have hkeys2 : ∀ g ∈ l2, (FileDesc.key g).isSome = true :=
      fun g hg => hkeys g (hperm.symm.subset hg)
    have h1 := any_isNone_false_of_forall hkeys
    have h2 := any_isNone_false_of_forall hkeys2
    have hndOf : (l1.map keyOf).Nodup :=
      List.Nodup.map_on (keyOf_inj_of_nodup hnd hkeys) (hnd.of_map FileDesc.key)
    have hndSort : ((List.insertionSort keyLe l1).map keyOf).Nodup :=
      (((List.perm_insertionSort keyLe l1).map keyOf).nodup_iff).mpr hndOf
    have hsorteq : List.insertionSort keyLe l1 = List.insertionSort keyLe l2 :=
      sorted_perm_eq_of_nodup_keys _ _
        ((List.perm_insertionSort keyLe l1).trans
          (hperm.trans (List.perm_insertionSort keyLe l2).symm))
        (List.sorted_insertionSort keyLe l1) (List.sorted_insertionSort keyLe l2)
        hndSort
    rw [select_preview_file, select_preview_file, if_neg (by simp [h1]),
      if_neg (by simp [h2]), hsorteq]

theorem C6_witness :
    (([dA, dB].Perm [dB, dA]) ∧ ([dA, dB].map FileDesc.key).Nodup) ∧
      select_preview_file txtOnly [dA, dB] none = select_preview_file txtOnly [dB, dA] none :=
  ⟨⟨by decide, by decide⟩, C6_determinism txtOnly [dA, dB] [dB, dA] none (by decide) (by decide)⟩

/-- The stored-object reference carried by a resolved file (fileobj.obj):
bucket and bucket_id are opaque handles. -/
structure ObjVersion where
  bucket : Nat
  bucket_id : Nat
deriving DecidableEq

/-- A resolved record file: its object version and the checksum its entry
records (fileobj.get with the checksum key, absent when the entry has none). -/
structure FileObj where
  obj : ObjVersion
  checksum : Option String
deriving DecidableEq

/-- The persistent identifier passed to the view. -/
structure PersistentId where
  pid_type : String
  pid_value : String
deriving DecidableEq

/-- An opaque record handle. -/
structure RecordData where
  rid : Nat
deriving DecidableEq

/-- The arguments file_download_ui hands to ObjectResource.send_object. -/
structure SendArgs where
  bucket : Nat
  obj : ObjVersion
  expected_chksum : Option String
  logger_bucket_id : Nat
  logger_pid_type : String
  logger_pid_value : String
  as_attachment : Bool
deriving DecidableEq

/-- What the view does with a request: abort with 404 or hand the object to
the streaming collaborator with the given arguments. -/
inductive DownloadResult where
  | notFound
  | sent (args : SendArgs)
deriving DecidableEq

/-- file_download_ui: resolve the file through the record-file factory, abort
404 when it is absent, otherwise send the object.  The permission check in
the source is commented out, so no permission evaluation appears here. -/
def file_download_ui (factory : PersistentId → RecordData → Option String → Option FileObj)
    (pid : PersistentId) (record : RecordData) (filename : Option String)
    (download_in_args : Bool) : DownloadResult :=
  match factory pid record filename with
  | none => DownloadResult.notFound
  | some fileobj =>
    DownloadResult.sent
      { bucket := fileobj.obj.bucket
        obj := fileobj.obj
        expected_chksum := fileobj.checksum
        logger_bucket_id := fileobj.obj.bucket_id
        logger_pid_type := pid.pid_type
        logger_pid_value := pid.pid_value
        as_attachment := download_in_args }

/-- The observable steps of one run of file_download_ui, in order. -/
inductive Event where
  | permCheck
  | abort404
  | stream
deriving DecidableEq

/-- The event trace of file_download_ui.  The call that would check
permissions (ObjectResource.check_object_permission, views.py line 165) is
commented out in the source, so no permCheck event is ever emitted. -/
def file_download_ui_events
    (factory : PersistentId → RecordData → Option String → Option FileObj)
    (pid : PersistentId) (record : RecordData) (filename : Option String)
    (_download_in_args : Bool) : List Event :=
  match factory pid record filename with
  | none => [Event.abort404]
  | some _ => [Event.stream]

/-- How a run of the streaming collaborator can end. -/
inductive SendOutcome where
  | ok200
  | integrityFault
deriving DecidableEq

/-- The view composed with an interpretation of ObjectResource.send_object. -/
def run_download (send_impl : SendArgs → SendOutcome)
    (factory : PersistentId → RecordData → Option String → Option FileObj)
    (pid : PersistentId) (record : RecordData) (filename : Option String)
    (download_in_args : Bool) : Option SendOutcome :=
  match file_download_ui factory pid record filename download_in_args with
  | DownloadResult.notFound => none
  | DownloadResult.sent a => some (send_impl a)

/-- The expected checksum handed to the streaming collaborator, when the view
reaches streaming at all. -/
def sentExpected : DownloadResult → Option (Option String)
  | DownloadResult.notFound => none
  | DownloadResult.sent a => some a.expected_chksum

/-- The disposition handed to the streaming collaborator, when the view
reaches streaming at all. -/
def sentAttachment : DownloadResult → Option Bool
  | DownloadResult.notFound => none
  | DownloadResult.sent a => some a.as_attachment

def pid0 : PersistentId := ⟨"recid", "12345-abcde"⟩

def rec0 : RecordData := ⟨0⟩

def fo0 : FileObj := ⟨⟨7, 7⟩, some "md5:recorded"⟩

def fac0 : PersistentId → RecordData → Option String → Option FileObj :=
  fun _ _ _ => some fo0

def facNone : PersistentId → RecordData → Option String → Option FileObj :=
  fun _ _ _ => none

/-- The actual checksum of every stored object, in the concrete scenario. -/
def store0 : ObjVersion → String := fun _ => "md5:actual"

/-- A streaming collaborator that honours the integrity contract: it fails
with an integrity fault whenever the stored checksum differs from the
expected one it was handed. -/
def send0 : SendArgs → SendOutcome :=
  fun a => if some (store0 a.obj) = a.expected_chksum then SendOutcome.ok200
    else SendOutcome.integrityFault

/-- C2: the claim that the read_files permission check is enforced before
streaming is right about the intended design and wrong about the code: the
check is commented out, so no run of file_download_ui ever evaluates a
permission, yet streaming is reached whenever the factory resolves a file. -/
theorem C2_no_permission_check :
    (∀ factory pid record filename dl,
      Event.permCheck ∉ file_download_ui_events factory pid record filename dl) ∧
    file_download_ui_events fac0 pid0 rec0 none true = [Event.stream] := by
  constructor
  · intro factory pid record filename dl
    rw [file_download_ui_events]
    cases factory pid record filename with
    | none => simp
    | some fo => simp
  · rfl

/-- C3: the expected checksum handed to the streaming collaborator is exactly
the checksum recorded in the resolved entry; hence under the collaborator
contract that a checksum mismatch yields an integrity fault, a request whose
stored bytes hash differently from the recorded checksum never completes a
200 response. -/
theorem C3_integrity (store : ObjVersion → String) (send_impl : SendArgs → SendOutcome)
    (factory : PersistentId → RecordData → Option String → Option FileObj)
    (pid : PersistentId) (record : RecordData) (filename : Option String)
    (dl : Bool) (fo : FileObj)
    (hf : factory pid record filename = some fo)
    (hcontract : ∀ a : SendArgs,
      some (store a.obj) ≠ a.expected_chksum → send_impl a = SendOutcome.integrityFault)
    (hmis : some (store fo.obj) ≠ fo.checksum) :
    sentExpected (file_download_ui factory pid record filename dl) = some fo.checksum ∧
    run_download send_impl factory pid record filename dl = some SendOutcome.integrityFault := by
  have hui : file_download_ui factory pid record filename dl =
      DownloadResult.sent
        { bucket := fo.obj.bucket
          obj := fo.obj
          expected_chksum := fo.checksum
          logger_bucket_id := fo.obj.bucket_id
          logger_pid_type := pid.pid_type
          logger_pid_value := pid.pid_value
          as_attachment := dl } := by
    rw [file_download_ui, hf]
  constructor
  · rw [hui]; rfl
  · rw [run_download, hui]
    exact congrArg some (hcontract _ hmis)

theorem C3_witness :
    ((fac0 pid0 rec0 none = some fo0) ∧
      (∀ a : SendArgs,
        some (store0 a.obj) ≠ a.expected_chksum → send0 a = SendOutcome.integrityFault) ∧
      some (store0 fo0.obj) ≠ fo0.checksum) ∧
    (sentExpected (file_download_ui fac0 pid0 rec0 none true) = some fo0.checksum ∧
      run_download send0 fac0 pid0 rec0 none true = some SendOutcome.integrityFault) :=
  ⟨⟨rfl, fun a h => by rw [send0, if_neg h], by decide⟩,
    C3_integrity store0 send0 fac0 pid0 rec0 none true fo0 rfl
      (fun a h => by rw [send0, if_neg h]) (by decide)⟩

/-- C8: when the record-file factory signals absence, the view aborts with
NotFound (the 404 path) and the streaming collaborator is never reached, so
zero bytes of file body are written. -/
theorem C8_not_found (factory : PersistentId → RecordData → Option String → Option FileObj)
    (pid : PersistentId) (record : RecordData) (filename : Option String) (dl : Bool)
    (hf : factory pid record filename = none) :
    file_download_ui factory pid record filename dl = DownloadResult.notFound ∧
    Event.stream ∉ file_download_ui_events factory pid record filename dl := by
  constructor
  · rw [file_download_ui, hf]
  · rw [file_download_ui_events, hf]
    simp

theorem C8_witness :
    (facNone pid0 rec0 (some "missing.txt") = none) ∧
    (file_download_ui facNone pid0 rec0 (some "missing.txt") false = DownloadResult.notFound ∧
      Event.stream ∉ file_download_ui_events facNone pid0 rec0 (some "missing.txt") false) :=
  ⟨rfl, C8_not_found facNone pid0 rec0 (some "missing.txt") false rfl⟩

/-- C9: for the same resolved file, the disposition handed to the streaming
collaborator is attachment exactly when the download query argument is
present, and inline when it is absent. -/
theorem C9_disposition (factory : PersistentId → RecordData → Option String → Option FileObj)
    (pid : PersistentId) (record : RecordData) (filename : Option String) (fo : FileObj)
    (hf : factory pid record filename = some fo) :
    sentAttachment (file_download_ui factory pid record filename true) = some true ∧
    sentAttachment (file_download_ui factory pid record filename false) = some false := by
  constructor
  · rw [file_download_ui, hf]; rfl
  · rw [file_download_ui, hf]; rfl

theorem C9_witness :
    (fac0 pid0 rec0 none = some fo0) ∧
    (sentAttachment (file_download_ui fac0 pid0 rec0 none true) = some true ∧
      sentAttachment (file_download_ui fac0 pid0 rec0 none false) = some false) :=
  ⟨rfl, C9_disposition fac0 pid0 rec0 none fo0 rfl⟩

/-- An internal record file as the transforms see it: an object version and
optional metadata (a mapping, here a key-value list). -/
structure RecordFile where
  object_version : ObjVersion
  metadata : Option (List (String × String))
deriving DecidableEq

/-- The arguments handed to the FileObject constructor, before the external
dumps serialization: the object reference and the data mapping. -/
structure FOut where
  obj : ObjVersion
  data : List (String × String)
deriving DecidableEq

/-- make_files_preview_compatible: iterate the record-files mapping and build
FileObject(obj=files[file].object_version, data= the empty dict) for each
entry; the data argument is the literal empty mapping in the source. -/
def make_files_preview_compatible (files : List (String × RecordFile)) : List FOut :=
  files.map fun kv => { obj := kv.2.object_version, data := [] }

/-- A record exposing its file collection, for to_previewer_files. -/
structure RecordWithFiles where
  files : List (String × RecordFile)
deriving DecidableEq

/-- to_previewer_files: FileObject(obj=f.object_version, data=f.metadata or
empty) over record.files.values(). -/
def to_previewer_files (record : RecordWithFiles) : List FOut :=
  record.files.map fun kv => { obj := kv.2.object_version, data := kv.2.metadata.getD [] }

def exFiles : List (String × RecordFile) :=
  [("a.txt", ⟨⟨1, 1⟩, some [("width", "5")]⟩)]

/-- C7 is false on the code: make_files_preview_compatible passes the empty
mapping as data even when the source entry has (non-empty) metadata, so its
output data does not equal the present metadata. -/
theorem C7_counterexample :
    (make_files_preview_compatible exFiles).map FOut.data ≠
      exFiles.map (fun kv => kv.2.metadata.getD []) := by
  decide

/-- C7 (amended): both transforms keep exactly one output entry per input
entry, carrying its object version; to_previewer_files sets data to the
entry's metadata when present and the empty mapping when absent, while
make_files_preview_compatible always sets data to the empty mapping. -/
theorem C7_normalizers (files : List (String × RecordFile)) (record : RecordWithFiles) :
    (make_files_preview_compatible files).length = files.length ∧
    (to_previewer_files record).length = record.files.length ∧
    (make_files_preview_compatible files).map FOut.obj =
      files.map (fun kv => kv.2.object_version) ∧
    (make_files_preview_compatible files).map FOut.data = files.map (fun _ => []) ∧
    (to_previewer_files record).map FOut.obj =
      record.files.map (fun kv => kv.2.object_version) ∧
    (to_previewer_files record).map FOut.data =
      record.files.map (fun kv => kv.2.metadata.getD []) := by
  refine ⟨?_, ?_, ?_, ?_, ?_, ?_⟩ <;>
    simp [make_files_preview_compatible, to_previewer_files, List.map_map, Function.comp_def,
      List.map_const]

/-- The scheme after the first block of pid_url: when none is given, the
first detected scheme, the IndexError of an empty detection list being
caught and leaving no scheme. -/
def pid_url_scheme (detect : String → List String) (identifier : String) :
    Option String → Option String
  | none => (detect identifier).head?
  | some s => some s

/-- The second block of pid_url: when both scheme and identifier are truthy,
delegate to the URL generator, any failure of which is caught; in every
other case fall through to the empty string. -/
def pid_url_emit (to_url : String → String → String → Except Unit String)
    (identifier url_scheme : String) : Option String → String
  | some s =>
    if s ≠ "" ∧ identifier ≠ "" then
      match to_url identifier s url_scheme with
      | Except.ok u => u
      | Except.error _ => ""
    else ""
  | none => ""

/-- pid_url: convert a persistent identifier into a link. -/
def pid_url (detect : String → List String)
    (to_url : String → String → String → Except Unit String)
    (identifier : String) (scheme : Option String) (url_scheme : String) : String :=
  pid_url_emit to_url identifier url_scheme (pid_url_scheme detect identifier scheme)

/-- C10: pid_url is total: a falsy identifier yields the empty string without
consulting the URL generator, whatever scheme argument is supplied, and a
URL-generator failure is absorbed into the empty string for every input. -/
theorem C10_pid_url_safe (detect : String → List String)
    (to_url to_url' : String → String → String → Except Unit String)
    (identifier : String) (scheme : Option String) (url_scheme : String) :
    pid_url detect to_url "" scheme url_scheme = "" ∧
    pid_url detect to_url "" scheme url_scheme = pid_url detect to_url' "" scheme url_scheme ∧
    pid_url detect (fun _ _ _ => Except.error ()) identifier scheme url_scheme = "" := by
  have hempty : ∀ f sch, pid_url_emit f "" url_scheme sch = "" := by
    intro f sch
    cases sch with
    | none => rfl
    | some s => simp [pid_url_emit]
  have herr : ∀ sch, pid_url_emit (fun _ _ _ => (Except.error () : Except Unit String))
      identifier url_scheme sch = "" := by
    intro sch
    cases sch with
    | none => rfl
    | some s =>
      rw [pid_url_emit]
      by_cases h : s ≠ "" ∧ identifier ≠ ""
      · rw [if_pos h]
      · rw [if_neg h]
  refine ⟨?_, ?_, ?_⟩
  · rw [pid_url, hempty]
  · rw [pid_url, pid_url, hempty, hempty]
  · rw [pid_url, herr]

end RDMViews
